import Mathlib

/-!
A verification development of the decision-tree classifier of the `rune` repository.

The embedding follows the Rust sources:
* `src/math/histogram.rs` — label histograms (`histogram`),
* `src/tree/src/measures/entropy.rs` — entropy and information gain
  (`entropy`, `EntropySelectionMeasure::apply` as `entropyGain`),
* `src/tree/feature_selector/greedy_feature_selector.rs` — the exhaustive greedy
  split search (`splitByValue`, `GreedyFeatureSelector::apply` as `greedyApply`),
* `src/tree/src/lib.rs` — tree nodes, leaf construction, recursive fitting and
  prediction (`DecisionTreeNode`, `new_leaf_node`, `build_tree`, `fit`, `predict`).

Rust `f64` values are modelled as real numbers.  A Rust panic (`unwrap` on `None`)
is modelled as `Option.none` propagating out of the computation.  The unspecified
iteration order of Rust's `HashMap` is made explicit as a reordering function
`σ` subject to `HistOrder σ` wherever an order-sensitive consumer
(`max_by_key` in `new_leaf_node`) inspects a histogram.
-/

namespace Rune

variable {T : Type} [DecidableEq T]

/-- One step of `histogram` (src/math/histogram.rs):
`histogram.entry(elem).and_modify(|e| *e += 1).or_insert(1)` — bump the count of
an existing key, otherwise insert the key with count 1. -/
def histAdd : List (T × ℕ) → T → List (T × ℕ)
  | [], a => [(a, 1)]
  | p :: h, a => if p.1 = a then (p.1, p.2 + 1) :: h else p :: histAdd h a

/-- `histogram` (src/math/histogram.rs): fold `histAdd` over the dataset.
The Rust `HashMap` is modelled as an association list in first-insertion order;
the map content is order-independent. -/
def histogram (l : List T) : List (T × ℕ) := l.foldl histAdd []

/-- The count an association list records for key `b` (`0` when absent). -/
def histCount : List (T × ℕ) → T → ℕ
  | [], _ => 0
  | p :: h, b => if p.1 = b then p.2 else histCount h b

/-- The keys of an association list. -/
def histKeys (h : List (T × ℕ)) : List T := h.map Prod.fst

/-- `entropy` (src/tree/src/measures/entropy.rs): build the histogram, map each
count to its frequency `ratio = count / length`, accumulate
`ratio * ratio.log2()`, and negate the sum. -/
noncomputable def entropy (l : List T) : ℝ :=
  -1 * ((histogram l).map
    (fun p => (p.2 : ℝ) / l.length * Real.logb 2 ((p.2 : ℝ) / l.length))).sum

/-- `y.select(Axis(0), indexes)`: the sublist of `l` picked out by the row
indices `idxs`, in order. -/
def select {α : Type} (l : List α) (idxs : List ℕ) : List α :=
  idxs.filterMap (fun i => l[i]?)

/-- The running best of `GreedyFeatureSelector::apply`: the five mutable locals
`best_score`, `best_split_value`, `best_split_column`, `best_left_indexes`,
`best_right_indexes`. -/
structure Best where
  score : ℝ
  value : ℝ
  column : ℕ
  left : List ℕ
  right : List ℕ

/-- `EntropySelectionMeasure::apply` (src/tree/src/measures/entropy.rs):
information gain of a candidate partition of the node labels. -/
noncomputable def entropyGain (y : List T) (leftIdx rightIdx : List ℕ) : ℝ :=
  entropy y -
    ((leftIdx.length : ℝ) / y.length * entropy (select y leftIdx) +
     (rightIdx.length : ℝ) / y.length * entropy (select y rightIdx))

/-- Column `j` of the feature matrix (`x.column(j)`). -/
def column (x : List (List ℝ)) (j : ℕ) : List ℝ :=
  x.map (fun row => row.getD j 0)

/-- `GreedyFeatureSelector::split_by_value`: push index `i` to the left vector
when `x[i] < value`, else to the right vector. -/
noncomputable def splitByValue (col : List ℝ) (v : ℝ) : List ℕ × List ℕ :=
  (List.range col.length).foldl
    (fun acc i =>
      if col.getD i 0 < v then (acc.1 ++ [i], acc.2) else (acc.1, acc.2 ++ [i]))
    ([], [])

/-- Number of feature columns.  (`ndarray` stores the shape; in the list model
it is read off the first row.) -/
def ncols (x : List (List ℝ)) : ℕ := (x.headD []).length

/-- The candidate inspected at column `j`, row `i` of the greedy search:
threshold `x[i][j]`, the partition produced by `split_by_value`, and its
information-gain score. -/
noncomputable def candidateAt (x : List (List ℝ)) (y : List T) (ji : ℕ × ℕ) : Best :=
  let col := column x ji.1
  let v := col.getD ji.2 0
  let lr := splitByValue col v
  ⟨entropyGain y lr.1 lr.2, v, ji.1, lr.1, lr.2⟩

/-- One iteration of the greedy search: keep the new candidate only when its
score is strictly greater than the running best score. -/
noncomputable def selStep (b c : Best) : Best :=
  if c.score > b.score then c else b

/-- The column-major, then row-major enumeration order of the two nested loops
of `GreedyFeatureSelector::apply`. -/
def pairs (x : List (List ℝ)) : List (ℕ × ℕ) :=
  (List.range (ncols x)).flatMap (fun j => (List.range x.length).map (fun i => (j, i)))

/-- The initial running best of `GreedyFeatureSelector::apply`:
`best_score = -1.0`, `best_split_value = 0.0`, `best_split_column = 0`, empty
index vectors. -/
def initBest : Best := ⟨-1, 0, 0, [], []⟩

/-- `GreedyFeatureSelector::apply` with the entropy selection measure: fold the
candidate enumeration, and return
`(best_left_indexes, best_right_indexes, best_split_value, best_split_column)`. -/
noncomputable def greedyApply (x : List (List ℝ)) (y : List T) :
    List ℕ × List ℕ × ℝ × ℕ :=
  let b := ((pairs x).map (candidateAt x y)).foldl selStep initBest
  (b.left, b.right, b.value, b.column)

/-- `DecisionTreeNode`: an `Interior` node holds a feature index, a threshold
and two owned children; a `Leaf` holds the predicted label (the field Rust
names `probability`). -/
inductive DecisionTreeNode (T : Type) : Type
  | Interior (feature : ℕ) (threshold : ℝ)
      (left right : DecisionTreeNode T) : DecisionTreeNode T
  | Leaf (probability : T) : DecisionTreeNode T

/-- Rust's `Iterator::max_by_key` over `(key, count)` pairs: an element with
maximal count; when several are equally maximal, the last one in iteration
order is returned. -/
def maxByKey : List (T × ℕ) → Option (T × ℕ)
  | [] => none
  | p :: rest => some (rest.foldl (fun acc q => if acc.2 ≤ q.2 then q else acc) p)

/-- `DecisionTreeNode::new_leaf_node`, applied to the histogram entries in a
given iteration order: `max_by_key` on the count and `unwrap` of the winning
key (`none` models the panic when the histogram is empty). -/
def newLeafNodeOrd (seq : List (T × ℕ)) : Option T :=
  (maxByKey seq).map Prod.fst

/-- `DecisionTreeNode::predict`: descend left when `x[feature] < threshold`,
else right; a leaf returns its stored label. -/
noncomputable def predictNode : DecisionTreeNode T → List ℝ → T
  | .Interior f th l r, x =>
    if x.getD f 0 < th then predictNode l x else predictNode r x
  | .Leaf p, _ => p

/-- `DecisionTreeModel`: exclusively owns the fitted tree. -/
structure DecisionTreeModel (T : Type) : Type where
  tree : DecisionTreeNode T

/-- `DecisionTreeModel::predict`: one prediction per input row, in row order. -/
noncomputable def DecisionTreeModel.predict (m : DecisionTreeModel T)
    (x : List (List ℝ)) : List T :=
  x.map (fun row => predictNode m.tree row)

/-- `DecisionTreeClassifier`'s configuration.  Its injected feature selector is
`GreedyFeatureSelector<EntropySelectionMeasure>`, embedded as `greedyApply`. -/
structure DecisionTreeClassifier : Type where
  maxDepth : ℕ
  minSize : ℕ

/-- `σ` yields, for each label list, the entries of its histogram in some
iteration order: Rust's `HashMap` iteration order is unspecified, so any
permutation of the histogram content is a possible enumeration. -/
def HistOrder (σ : List T → List (T × ℕ)) : Prop :=
  ∀ l, List.Perm (σ l) (histogram l)

/-- `DecisionTreeClassifier::build_tree`: stop with a leaf when
`y.len() <= min_size || depth > max_depth || current_entropy == 0`, otherwise
ask the feature selector for a split and recurse on both sides (left first, as
in the source — a panic on the left side prevents the right build). -/
noncomputable def buildTree (σ : List T → List (T × ℕ))
    (cfg : DecisionTreeClassifier) (x : List (List ℝ)) (y : List T)
    (depth : ℕ) : Option (DecisionTreeNode T) :=
  if h : y.length ≤ cfg.minSize ∨ depth > cfg.maxDepth ∨ entropy y = 0 then
    (newLeafNodeOrd (σ y)).map DecisionTreeNode.Leaf
  else
    let res := greedyApply x y
    (buildTree σ cfg (select x res.1) (select y res.1) (depth + 1)).bind fun l =>
      (buildTree σ cfg (select x res.2.1) (select y res.2.1) (depth + 1)).bind fun r =>
        some (DecisionTreeNode.Interior res.2.2.2 res.2.2.1 l r)
  termination_by cfg.maxDepth + 1 - depth
  decreasing_by
  · push_neg at h
    obtain ⟨h1, h2, h3⟩ := h
    omega
  · push_neg at h
    obtain ⟨h1, h2, h3⟩ := h
    omega

/-- `DecisionTreeClassifier::fit`: build from depth `0` and wrap the tree in a
model. -/
noncomputable def fit (σ : List T → List (T × ℕ)) (cfg : DecisionTreeClassifier)
    (x : List (List ℝ)) (y : List T) : Option (DecisionTreeModel T) :=
  (buildTree σ cfg x y 0).map DecisionTreeModel.mk

/-- Height of a tree, counting `Interior` levels (a `Leaf` has height `0`).
A node built by a call at `depth` parameter `d` sits `height` recursive calls
above the deepest call of its construction. -/
def height : DecisionTreeNode T → ℕ
  | .Leaf _ => 0
  | .Interior _ _ l r => 1 + max (height l) (height r)

/-- The labels stored at the leaves of a tree. -/
def leafLabels : DecisionTreeNode T → List T
  | .Leaf p => [p]
  | .Interior _ _ l r => leafLabels l ++ leafLabels r

/-- The spec's worked 8-row dataset: a single feature column. -/
def x8 : List (List ℝ) := [[1], [1], [1], [1], [5], [5], [5], [5]]

/-- Labels `[A, A, A, A, B, B, B, B]`. -/
def y8 : List Bool := [false, false, false, false, true, true, true, true]

/-- `DecisionTreeClassifier(max_depth = 1, min_size = 1)`. -/
def cfg18 : DecisionTreeClassifier := ⟨1, 1⟩

/-- Four rows with the identical feature vector `[1]`. -/
def x4 : List (List ℝ) := [[1], [1], [1], [1]]

/-- Mixed labels for the identical-feature dataset. -/
def y4 : List Bool := [false, false, true, true]

/-- `DecisionTreeClassifier(max_depth = 3, min_size = 1)`. -/
def cfg31 : DecisionTreeClassifier := ⟨3, 1⟩

/-- A two-row dataset with distinct feature values. -/
def x2 : List (List ℝ) := [[1], [5]]

/-- Labels `[A, B]`. -/
def y2 : List Bool := [false, true]

/-- `DecisionTreeClassifier(max_depth = 0, min_size = 1)`. -/
def cfg01 : DecisionTreeClassifier := ⟨0, 1⟩

/-- `DecisionTreeClassifier(max_depth = 5, min_size = 2)`: stops at the root. -/
def cfg52 : DecisionTreeClassifier := ⟨5, 2⟩

/-- The reversed histogram iteration order: an equally possible `HashMap`
enumeration of the same content. -/
def histogramRev (l : List T) : List (T × ℕ) := (histogram l).reverse

/-- Whether the root of a tree is a `Leaf`. -/
def isLeafNode : DecisionTreeNode T → Bool
  | .Leaf _ => true
  | .Interior _ _ _ _ => false

/-- Following the spec's words for the Feature Selector: the candidate at
column `j`, row `i` thresholds at `x[i][j]` and partitions the node's row
indices by "row goes left iff `x[row][j] < threshold`, else right". -/
noncomputable def specCandidate (x : List (List ℝ)) (y : List T) (ji : ℕ × ℕ) : Best :=
  let v := (column x ji.1).getD ji.2 0
  let leftIdx := (List.range x.length).filter
    (fun i => decide ((column x ji.1).getD i 0 < v))
  let rightIdx := (List.range x.length).filter
    (fun i => decide (¬ (column x ji.1).getD i 0 < v))
  ⟨entropyGain y leftIdx rightIdx, v, ji.1, leftIdx, rightIdx⟩

/-- Following the spec's words for the selection rule: the returned candidate
maximizes the Selection Measure score over the whole enumeration, and on score
ties the first-encountered candidate is retained (every candidate before it
scores strictly less). -/
def specGreedyChoice (cs : List Best) (c : Best) : Prop :=
  ∃ pre post, cs = pre ++ c :: post ∧ (∀ d ∈ cs, d.score ≤ c.score) ∧
    ∀ d ∈ pre, d.score < c.score

theorem histCount_histAdd (h : List (T × ℕ)) (a b : T) :
    histCount (histAdd h a) b = histCount h b + if b = a then 1 else 0 := by
  induction h with
  | nil =>
    by_cases hba : b = a
    · subst hba; simp [histAdd, histCount]
    · have hab : ¬ a = b := fun hc => hba hc.symm
      simp [histAdd, histCount, hba, hab]
  | cons p h ih =>
    simp only [histAdd]
    by_cases hpa : p.1 = a
    · rw [if_pos hpa]
      by_cases hpb : p.1 = b
      · have hba : b = a := by rw [← hpb, hpa]
        simp only [histCount, if_pos hpb, if_pos hba]
      · have hba : ¬ b = a := by
          intro hc; rw [hc] at hpb; exact hpb hpa
        simp only [histCount, if_neg hpb, if_neg hba, Nat.add_zero]
    · rw [if_neg hpa]
      simp only [histCount]
      by_cases hpb : p.1 = b
      · have hba : ¬ b = a := by
          intro hc; rw [← hpb] at hc; exact hpa hc
        simp only [if_pos hpb, if_neg hba, Nat.add_zero]
      · simp only [if_neg hpb, ih]

theorem mem_histKeys_histAdd (h : List (T × ℕ)) (a b : T) :
    b ∈ histKeys (histAdd h a) ↔ b ∈ histKeys h ∨ b = a := by
  induction h with
  | nil => simp [histAdd, histKeys]
  | cons p h ih =>
    by_cases hpa : p.1 = a
    · by_cases hb : b = p.1
      · simp [histAdd, histKeys, hpa, hb]
      · constructor
        · intro hmem
          simp [histAdd, hpa, histKeys] at hmem ⊢
          tauto
        · intro hmem
          simp [histAdd, hpa, histKeys] at hmem ⊢
          rcases hmem with (h1 | h2) | h3
          · exact Or.inl h1
          · exact Or.inr h2
          · exact Or.inl (by rw [h3, ← hpa])
    · simp only [histAdd, hpa, if_false, histKeys, List.map_cons, List.mem_cons]
      rw [show (histAdd h a).map Prod.fst = histKeys (histAdd h a) from rfl,
        show h.map Prod.fst = histKeys h from rfl] at *
      rw [ih]
      tauto

theorem nodup_histKeys_histAdd (h : List (T × ℕ)) (a : T)
    (hn : (histKeys h).Nodup) : (histKeys (histAdd h a)).Nodup := by
  induction h with
  | nil => simp [histAdd, histKeys]
  | cons p h ih =>
    simp only [histAdd]
    by_cases hpa : p.1 = a
    · rw [if_pos hpa]; exact hn
    · rw [if_neg hpa]
      have hn1 : p.1 ∉ histKeys h := by
        simpa [histKeys] using (List.nodup_cons.1 hn).1
      have hn2 : (histKeys h).Nodup := (List.nodup_cons.1 hn).2
      rw [show histKeys (p :: histAdd h a) = p.1 :: histKeys (histAdd h a) from rfl,
        List.nodup_cons]
      refine ⟨?_, ih hn2⟩
      intro hc
      rw [mem_histKeys_histAdd] at hc
      rcases hc with hc | hc
      · exact hn1 hc
      · exact hpa hc

theorem histCount_foldl (l : List T) (h : List (T × ℕ)) (b : T) :
    histCount (l.foldl histAdd h) b = histCount h b + l.count b := by
  induction l generalizing h with
  | nil => simp
  | cons a l ih =>
    simp only [List.foldl_cons, ih, histCount_histAdd, List.count_cons, beq_iff_eq]
    by_cases hba : b = a
    · subst hba; simp; omega
    · have hab : ¬ a = b := fun hc => hba hc.symm
      simp [hba, hab]

theorem histCount_histogram (l : List T) (b : T) :
    histCount (histogram l) b = l.count b := by
  simp [histogram, histCount_foldl, histCount]

theorem mem_histKeys_foldl (l : List T) (h : List (T × ℕ)) (b : T) :
    b ∈ histKeys (l.foldl histAdd h) ↔ b ∈ histKeys h ∨ b ∈ l := by
  induction l generalizing h with
  | nil => simp
  | cons a l ih =>
    simp only [List.foldl_cons, ih, mem_histKeys_histAdd, List.mem_cons]
    tauto

theorem mem_histKeys_histogram (l : List T) (b : T) :
    b ∈ histKeys (histogram l) ↔ b ∈ l := by
  rw [histogram, mem_histKeys_foldl]
  simp [histKeys]

theorem nodup_histKeys_foldl (l : List T) (h : List (T × ℕ))
    (hn : (histKeys h).Nodup) : (histKeys (l.foldl histAdd h)).Nodup := by
  induction l generalizing h with
  | nil => exact hn
  | cons a l ih => exact ih _ (nodup_histKeys_histAdd _ _ hn)

theorem nodup_histKeys_histogram (l : List T) : (histKeys (histogram l)).Nodup := by
  apply nodup_histKeys_foldl
  simp [histKeys]

theorem snd_eq_histCount_of_mem {h : List (T × ℕ)} {p : T × ℕ}
    (hn : (histKeys h).Nodup) (hp : p ∈ h) : p.2 = histCount h p.1 := by
  induction h with
  | nil => simp at hp
  | cons q h ih =>
    simp only [histKeys, List.map_cons, List.nodup_cons] at hn
    rcases List.mem_cons.1 hp with hq | hmem
    · subst hq
      simp [histCount]
    · have hne : ¬ q.1 = p.1 := by
        intro hc
        exact hn.1 (by rw [hc]; exact List.mem_map_of_mem Prod.fst hmem)
      simpa [histCount, hne] using ih hn.2 hmem

theorem mem_of_mem_histKeys {h : List (T × ℕ)} {a : T}
    (ha : a ∈ histKeys h) : (a, histCount h a) ∈ h := by
  induction h with
  | nil => simp [histKeys] at ha
  | cons q h ih =>
    by_cases hq : q.1 = a
    · have hc : histCount (q :: h) a = q.2 := by simp [histCount, hq]
      rw [hc]
      subst hq
      exact List.mem_cons_self _ _
    · simp only [histKeys, List.map_cons, List.mem_cons] at ha
      rcases ha with ha | ha
      · exact absurd ha.symm hq
      · have hc : histCount (q :: h) a = histCount h a := by simp [histCount, hq]
        rw [hc]
        exact List.mem_cons_of_mem _ (ih ha)

theorem mem_histogram_iff (l : List T) (p : T × ℕ) :
    p ∈ histogram l ↔ p.1 ∈ l ∧ p.2 = l.count p.1 := by
  constructor
  · intro hp
    have h1 : p.1 ∈ histKeys (histogram l) := List.mem_map_of_mem Prod.fst hp
    refine ⟨(mem_histKeys_histogram l p.1).1 h1, ?_⟩
    rw [snd_eq_histCount_of_mem (nodup_histKeys_histogram l) hp,
      histCount_histogram]
  · rintro ⟨h1, h2⟩
    have := mem_of_mem_histKeys ((mem_histKeys_histogram l p.1).2 h1)
    rw [histCount_histogram] at this
    have hp : p = (p.1, l.count p.1) := by
      cases p; simp_all
    rw [hp]; exact this

theorem map_sum_eq_finset_sum (h : List (T × ℕ)) (f : T × ℕ → ℝ)
    (hn : (histKeys h).Nodup) :
    (h.map f).sum = ∑ a ∈ (histKeys h).toFinset, f (a, histCount h a) := by
  induction h with
  | nil => simp [histKeys]
  | cons p h ih =>
    have hn1 : p.1 ∉ histKeys h := (List.nodup_cons.1 hn).1
    have hn2 : (histKeys h).Nodup := (List.nodup_cons.1 hn).2
    have hnot : p.1 ∉ (histKeys h).toFinset := by
      simpa using hn1
    have hkeys : histKeys (p :: h) = p.1 :: histKeys h := rfl
    rw [List.map_cons, List.sum_cons, hkeys, List.toFinset_cons,
      Finset.sum_insert hnot]
    have h1 : histCount (p :: h) p.1 = p.2 := by simp [histCount]
    have h2 : ∑ a ∈ (histKeys h).toFinset, f (a, histCount (p :: h) a)
        = ∑ a ∈ (histKeys h).toFinset, f (a, histCount h a) := by
      apply Finset.sum_congr rfl
      intro a ha
      have hap : ¬ p.1 = a := by
        intro hc; rw [hc] at hn1; exact hn1 (by simpa using ha)
      simp [histCount, hap]
    rw [h1, h2, ih hn2]

theorem toFinset_histKeys_histogram (l : List T) :
    (histKeys (histogram l)).toFinset = l.toFinset := by
  ext a
  simp [mem_histKeys_histogram]

theorem entropy_eq_sum (l : List T) :
    entropy l = -1 * ∑ a ∈ l.toFinset,
      ((l.count a : ℝ) / l.length * Real.logb 2 ((l.count a : ℝ) / l.length)) := by
  rw [entropy, map_sum_eq_finset_sum _ _ (nodup_histKeys_histogram l),
    toFinset_histKeys_histogram]
  congr 1
  apply Finset.sum_congr rfl
  intro a _
  rw [histCount_histogram]

@[simp] theorem entropy_nil : entropy ([] : List T) = 0 := by
  simp [entropy, histogram]

/-- A subset with all labels identical has entropy `0`. -/
theorem entropy_of_all_eq {l : List T} {a : T} (hne : l ≠ [])
    (hall : ∀ b ∈ l, b = a) : entropy l = 0 := by
  have hmem : a ∈ l := by
    cases l with
    | nil => exact absurd rfl hne
    | cons x l => exact (hall x (by simp)) ▸ List.mem_cons_self x l
  have hfin : l.toFinset = {a} := by
    ext b
    simp only [List.mem_toFinset, Finset.mem_singleton]
    exact ⟨fun hb => hall b hb, fun hb => hb ▸ hmem⟩
  have hcount : l.count a = l.length :=
    List.count_eq_length.2 (fun b hb => (hall b hb).symm)
  have hlen : (l.length : ℝ) ≠ 0 :=
    Nat.cast_ne_zero.2 (by simpa [List.length_eq_zero] using hne)
  rw [entropy_eq_sum, hfin, Finset.sum_singleton, hcount, div_self hlen]
  simp

/-- A subset with `k` classes, each occurring exactly `m > 0` times, has entropy
`log2 k`. -/
theorem entropy_of_uniform {l : List T} {k m : ℕ} (hk : l.toFinset.card = k)
    (hm : ∀ a ∈ l, l.count a = m) (hm0 : 0 < m) (hk0 : 0 < k) :
    entropy l = Real.logb 2 k := by
  have hlen : l.length = k * m := by
    have h1 : ∑ a ∈ l.toFinset, l.count a = l.length := by
      classical
      simpa using Multiset.toFinset_sum_count_eq (l : Multiset T)
    have h2 : ∑ a ∈ l.toFinset, l.count a = k * m := by
      rw [Finset.sum_congr rfl (fun a ha => hm a (List.mem_toFinset.1 ha)),
        Finset.sum_const, hk, smul_eq_mul]
    rw [← h1, h2]
  have hkR : (k : ℝ) ≠ 0 := (Nat.cast_pos.2 hk0).ne'
  have hmR : (m : ℝ) ≠ 0 := (Nat.cast_pos.2 hm0).ne'
  have hratio : ∀ a ∈ l.toFinset, ((l.count a : ℝ) / l.length) = (k : ℝ)⁻¹ := by
    intro a ha
    rw [hm a (List.mem_toFinset.1 ha), hlen]
    push_cast
    field_simp
    ring
  rw [entropy_eq_sum]
  rw [Finset.sum_congr rfl (fun a ha => by rw [hratio a ha]), Finset.sum_const, hk,
    nsmul_eq_mul, Real.logb_inv]
  field_simp

/-- A subset containing two distinct labels has strictly positive entropy. -/
theorem entropy_pos {l : List T} {a b : T} (ha : a ∈ l) (hb : b ∈ l)
    (hab : a ≠ b) : 0 < entropy l := by
  have hlenpos : 0 < l.length := List.length_pos.2 (by rintro rfl; simp at ha)
  have hterm : ∀ c ∈ l.toFinset,
      ((l.count c : ℝ) / l.length * Real.logb 2 ((l.count c : ℝ) / l.length)) < 0 := by
    intro c hc
    have hcl : c ∈ l := List.mem_toFinset.1 hc
    have hcount_pos : 0 < l.count c := List.count_pos_iff.2 hcl
    have hcount_lt : l.count c < l.length := by
      rcases Nat.lt_or_ge (l.count c) l.length with h | h
      · exact h
      · exfalso
        have : l.count c = l.length := le_antisymm (List.count_le_length c l) h
        have hall := List.count_eq_length.1 this
        exact hab ((hall a ha).symm.trans (hall b hb))
    have hp0 : (0 : ℝ) < (l.count c : ℝ) / l.length := by
      apply div_pos <;> exact_mod_cast (by assumption)
    have hp1 : ((l.count c : ℝ) / l.length) < 1 := by
      rw [div_lt_one (by exact_mod_cast hlenpos)]
      exact_mod_cast hcount_lt
    exact mul_neg_of_pos_of_neg hp0 (Real.logb_neg one_lt_two hp0 hp1)
  have hsum : ∑ c ∈ l.toFinset,
      ((l.count c : ℝ) / l.length * Real.logb 2 ((l.count c : ℝ) / l.length)) < 0 :=
    Finset.sum_neg hterm ⟨a, List.mem_toFinset.2 ha⟩
  rw [entropy_eq_sum]
  linarith

@[simp] theorem select_nil {α : Type} (l : List α) : select l [] = [] := rfl

theorem select_range {α : Type} (l : List α) : select l (List.range l.length) = l := by
  unfold select
  induction l using List.reverseRecOn with
  | nil => simp
  | append_singleton l a ih =>
    rw [List.length_append, List.length_singleton, List.range_succ,
      List.filterMap_append]
    have h1 : List.filterMap (fun i => (l ++ [a])[i]?) (List.range l.length)
        = List.filterMap (fun i => l[i]?) (List.range l.length) := by
      apply List.filterMap_congr
      intro i hi
      rw [List.mem_range] at hi
      simp [List.getElem?_append, hi]
    rw [h1, ih]
    simp

theorem mem_of_mem_select {α : Type} {l : List α} {idxs : List ℕ} {a : α}
    (h : a ∈ select l idxs) : a ∈ l := by
  unfold select at h
  rcases List.mem_filterMap.1 h with ⟨i, _, hget⟩
  exact List.getElem?_mem hget

theorem selStep_of_lt {b c : Best} (h : b.score < c.score) : selStep b c = c :=
  if_pos h

theorem selStep_of_le {b c : Best} (h : c.score ≤ b.score) : selStep b c = b :=
  if_neg (not_lt.2 h)

theorem foldl_selStep_of_le {cs : List Best} {b : Best}
    (h : ∀ c ∈ cs, c.score ≤ b.score) : cs.foldl selStep b = b := by
  induction cs with
  | nil => rfl
  | cons c cs ih =>
    rw [List.foldl_cons, selStep_of_le (h c (List.mem_cons_self c cs))]
    exact ih (fun d hd => h d (List.mem_cons_of_mem c hd))

/-- The strict-greater-than fold keeps the first-encountered maximiser: when some
candidate beats the running best, the fold returns a candidate that every
candidate is `≤`, with every earlier candidate strictly below it. -/
theorem foldl_selStep_argmax {cs : List Best} {b : Best}
    (h : ∃ c ∈ cs, b.score < c.score) :
    ∃ pre c post, cs = pre ++ c :: post ∧ cs.foldl selStep b = c ∧
      b.score < c.score ∧ (∀ d ∈ cs, d.score ≤ c.score) ∧
      ∀ d ∈ pre, d.score < c.score := by
  induction cs generalizing b with
  | nil => simp at h
  | cons c cs ih =>
    rw [List.foldl_cons]
    by_cases hc : b.score < c.score
    · rw [selStep_of_lt hc]
      by_cases hall : ∀ d ∈ cs, d.score ≤ c.score
      · refine ⟨[], c, cs, by simp, foldl_selStep_of_le hall, hc, ?_, by simp⟩
        intro d hd
        rcases List.mem_cons.1 hd with rfl | hd
        · exact le_refl _
        · exact hall d hd
      · push_neg at hall
        rcases ih hall with ⟨pre, e, post, hsplit, hfold, hlt, hmax, hpre⟩
        refine ⟨c :: pre, e, post, by rw [hsplit]; rfl, hfold, hc.trans hlt, ?_, ?_⟩
        · intro d hd
          rcases List.mem_cons.1 hd with rfl | hd
          · exact le_of_lt hlt
          · exact hmax d hd
        · intro d hd
          rcases List.mem_cons.1 hd with rfl | hd
          · exact hlt
          · exact hpre d hd
    · push_neg at hc
      rw [selStep_of_le hc]
      rcases h with ⟨d, hd, hbd⟩
      rcases List.mem_cons.1 hd with rfl | hd
      · exact absurd hbd (not_lt.2 hc)
      · rcases ih ⟨d, hd, hbd⟩ with ⟨pre, e, post, hsplit, hfold, hlt, hmax, hpre⟩
        refine ⟨c :: pre, e, post, by rw [hsplit]; rfl, hfold, hlt, ?_, ?_⟩
        · intro d' hd'
          rcases List.mem_cons.1 hd' with rfl | hd'
          · exact hc.trans (le_of_lt hlt)
          · exact hmax d' hd'
        · intro d' hd'
          rcases List.mem_cons.1 hd' with rfl | hd'
          · exact lt_of_le_of_lt hc hlt
          · exact hpre d' hd'

theorem column_length (x : List (List ℝ)) (j : ℕ) : (column x j).length = x.length := by
  simp [column]

theorem foldl_split_append (col : List ℝ) (v : ℝ) (L : List ℕ)
    (acc : List ℕ × List ℕ) :
    L.foldl
      (fun acc i =>
        if col.getD i 0 < v then (acc.1 ++ [i], acc.2) else (acc.1, acc.2 ++ [i]))
      acc =
    (acc.1 ++ L.filter (fun i => decide (col.getD i 0 < v)),
     acc.2 ++ L.filter (fun i => decide (¬ col.getD i 0 < v))) := by
  induction L generalizing acc with
  | nil => simp
  | cons i L ih =>
    rw [List.foldl_cons]
    by_cases hi : col.getD i 0 < v
    · have h1 : List.filter (fun k => decide (col.getD k 0 < v)) (i :: L)
          = i :: List.filter (fun k => decide (col.getD k 0 < v)) L := by
        simp only [List.filter_cons]
        rw [if_pos (by simpa using hi)]
      have h2 : List.filter (fun k => decide (¬ col.getD k 0 < v)) (i :: L)
          = List.filter (fun k => decide (¬ col.getD k 0 < v)) L := by
        simp only [List.filter_cons]
        rw [if_neg (by simpa using hi)]
      rw [if_pos hi, ih, h1, h2]
      simp
    · have h1 : List.filter (fun k => decide (col.getD k 0 < v)) (i :: L)
          = List.filter (fun k => decide (col.getD k 0 < v)) L := by
        simp only [List.filter_cons]
        rw [if_neg (by simpa using hi)]
      have h2 : List.filter (fun k => decide (¬ col.getD k 0 < v)) (i :: L)
          = i :: List.filter (fun k => decide (¬ col.getD k 0 < v)) L := by
        simp only [List.filter_cons]
        rw [if_pos (by simpa using hi)]
      rw [if_neg hi, ih, h1, h2]
      simp

/-- `split_by_value` is the pair of complementary filters of the row-index
range: left gets the strictly smaller values, right the rest. -/
theorem splitByValue_eq_filter (col : List ℝ) (v : ℝ) :
    splitByValue col v =
      ((List.range col.length).filter (fun i => decide (col.getD i 0 < v)),
       (List.range col.length).filter (fun i => decide (¬ col.getD i 0 < v))) := by
  rw [splitByValue, foldl_split_append]
  simp

theorem splitByValue_disjoint (col : List ℝ) (v : ℝ) :
    Disjoint (splitByValue col v).1.toFinset (splitByValue col v).2.toFinset := by
  rw [splitByValue_eq_filter]
  rw [Finset.disjoint_left]
  intro i hil hir
  simp only [List.toFinset_filter, Finset.mem_filter] at hil hir
  rw [decide_eq_true_iff] at hil hir
  exact hir.2 hil.2

theorem splitByValue_union (col : List ℝ) (v : ℝ) :
    (splitByValue col v).1.toFinset ∪ (splitByValue col v).2.toFinset
      = Finset.range col.length := by
  rw [splitByValue_eq_filter]
  ext i
  simp only [Finset.mem_union, List.toFinset_filter, Finset.mem_filter,
    List.mem_toFinset, List.mem_range, Finset.mem_range, decide_eq_true_iff]
  by_cases hi : col.getD i 0 < v <;> tauto

theorem exists_getD_min (c : List ℝ) (hc : c ≠ []) :
    ∃ i, i < c.length ∧ ∀ k, k < c.length → c.getD i 0 ≤ c.getD k 0 := by
  induction c with
  | nil => exact absurd rfl hc
  | cons a c ih =>
    rcases eq_or_ne c [] with rfl | hne
    · refine ⟨0, by simp, ?_⟩
      intro k hk
      simp only [List.length_cons, List.length_nil] at hk
      have hk0 : k = 0 := by omega
      subst hk0
      simp
    · rcases ih hne with ⟨i, hi, hmin⟩
      by_cases ha : a ≤ c.getD i 0
      · refine ⟨0, by simp, ?_⟩
        intro k hk
        cases k with
        | zero => simp
        | succ k =>
          rw [List.getD_cons_zero, List.getD_cons_succ]
          exact ha.trans (hmin k (by simpa using hk))
      · refine ⟨i + 1, by simpa using hi, ?_⟩
        intro k hk
        cases k with
        | zero =>
          rw [List.getD_cons_succ, List.getD_cons_zero]
          exact le_of_not_le ha
        | succ k =>
          rw [List.getD_cons_succ, List.getD_cons_succ]
          exact hmin k (by simpa using hk)

/-- Some enumerated candidate — the one thresholding at a minimal value of
column 0 — sends no row left and all rows right, and therefore has information
gain exactly `0`, which beats the `-1.0` sentinel. -/
theorem exists_zero_gain_candidate (x : List (List ℝ)) (y : List T)
    (hx : 0 < x.length) (hM : 0 < ncols x) (hxy : y.length = x.length) :
    ∃ ji ∈ pairs x, (candidateAt x y ji).score = 0 := by
  have hcol : (column x 0).length = x.length := column_length x 0
  have hcne : column x 0 ≠ [] := by
    intro hc
    rw [hc] at hcol
    simp at hcol
    omega
  rcases exists_getD_min (column x 0) hcne with ⟨i, hi, hmin⟩
  refine ⟨(0, i), ?_, ?_⟩
  · rw [pairs, List.mem_flatMap]
    refine ⟨0, by simpa using hM, ?_⟩
    simp only [List.mem_map, List.mem_range]
    exact ⟨i, by omega, rfl⟩
  · have hsplit : splitByValue (column x 0) ((column x 0).getD i 0)
        = ([], List.range (column x 0).length) := by
      rw [splitByValue_eq_filter, Prod.mk.injEq]
      constructor
      · rw [List.filter_eq_nil_iff]
        intro k hk
        rw [List.mem_range] at hk
        simp only [decide_eq_true_iff, not_lt]
        exact hmin k hk
      · rw [List.filter_eq_self]
        intro k hk
        rw [List.mem_range] at hk
        simp only [decide_eq_true_iff, not_lt]
        exact hmin k hk
    show entropyGain y
      (splitByValue (column x (0, i).1) ((column x (0, i).1).getD (0, i).2 0)).1
      (splitByValue (column x (0, i).1) ((column x (0, i).1).getD (0, i).2 0)).2 = 0
    rw [hsplit]
    rw [entropyGain]
    rw [hcol, ← hxy, select_range]
    have hylen : (y.length : ℝ) ≠ 0 := by
      have : 0 < y.length := by omega
      exact_mod_cast this.ne'
    rw [List.length_range]
    field_simp

/-- The greedy selector's result is the first-encountered maximal-gain candidate
of the column-major/row-major enumeration. -/
theorem greedyApply_spec (x : List (List ℝ)) (y : List T)
    (hx : 0 < x.length) (hM : 0 < ncols x) (hxy : y.length = x.length) :
    ∃ pre c post, (pairs x).map (candidateAt x y) = pre ++ c :: post ∧
      greedyApply x y = (c.left, c.right, c.value, c.column) ∧
      (-1 : ℝ) < c.score ∧
      (∀ d ∈ (pairs x).map (candidateAt x y), d.score ≤ c.score) ∧
      ∀ d ∈ pre, d.score < c.score := by
  rcases exists_zero_gain_candidate x y hx hM hxy with ⟨ji, hji, hscore⟩
  have hex : ∃ c ∈ (pairs x).map (candidateAt x y), initBest.score < c.score := by
    refine ⟨candidateAt x y ji, List.mem_map_of_mem _ hji, ?_⟩
    rw [hscore]
    norm_num [initBest]
  rcases foldl_selStep_argmax hex with ⟨pre, c, post, hsplit, hfold, hlt, hmax, hpre⟩
  refine ⟨pre, c, post, hsplit, ?_, ?_, hmax, hpre⟩
  · rw [greedyApply, hfold]
  · simpa [initBest] using hlt

theorem le_foldl_maxStep (rest : List (T × ℕ)) (p : T × ℕ) :
    p.2 ≤ (rest.foldl (fun acc q => if acc.2 ≤ q.2 then q else acc) p).2 := by
  induction rest generalizing p with
  | nil => simp
  | cons q rest ih =>
    rw [List.foldl_cons]
    by_cases h : p.2 ≤ q.2
    · rw [if_pos h]; exact h.trans (ih q)
    · rw [if_neg h]; exact ih p

theorem foldl_maxStep_mem (rest : List (T × ℕ)) (p : T × ℕ) :
    rest.foldl (fun acc q => if acc.2 ≤ q.2 then q else acc) p ∈ p :: rest := by
  induction rest generalizing p with
  | nil => simp
  | cons q rest ih =>
    rw [List.foldl_cons]
    by_cases h : p.2 ≤ q.2
    · rw [if_pos h]
      rcases List.mem_cons.1 (ih q) with h1 | h1
      · rw [h1]; exact List.mem_cons_of_mem _ (List.mem_cons_self _ _)
      · exact List.mem_cons_of_mem _ (List.mem_cons_of_mem _ h1)
    · rw [if_neg h]
      rcases List.mem_cons.1 (ih p) with h1 | h1
      · rw [h1]; exact List.mem_cons_self _ _
      · exact List.mem_cons_of_mem _ (List.mem_cons_of_mem _ h1)

theorem foldl_maxStep_le_of_mem (rest : List (T × ℕ)) (p q : T × ℕ) :
    q ∈ rest →
      q.2 ≤ (rest.foldl (fun acc r => if acc.2 ≤ r.2 then r else acc) p).2 := by
  induction rest generalizing p with
  | nil => intro hq; simp at hq
  | cons r rest ih =>
    intro hq
    rw [List.foldl_cons]
    rcases List.mem_cons.1 hq with rfl | hq
    · by_cases h : p.2 ≤ q.2
      · rw [if_pos h]; exact le_foldl_maxStep rest q
      · rw [if_neg h]; exact (not_le.1 h).le.trans (le_foldl_maxStep rest p)
    · exact ih _ hq

/-- On a non-empty sequence, `max_by_key` returns an element whose count every
element's count is `≤`. -/
theorem maxByKey_eq_some {seq : List (T × ℕ)} (hne : seq ≠ []) :
    ∃ p, maxByKey seq = some p ∧ p ∈ seq ∧ ∀ q ∈ seq, q.2 ≤ p.2 := by
  cases seq with
  | nil => exact absurd rfl hne
  | cons p rest =>
    refine ⟨_, rfl, foldl_maxStep_mem rest p, ?_⟩
    intro q hq
    rcases List.mem_cons.1 hq with rfl | hq
    · exact le_foldl_maxStep rest q
    · exact foldl_maxStep_le_of_mem rest p q hq

theorem mem_of_maxByKey_eq_some {seq : List (T × ℕ)} {p : T × ℕ}
    (h : maxByKey seq = some p) : p ∈ seq := by
  cases seq with
  | nil => simp [maxByKey] at h
  | cons q rest =>
    rw [maxByKey, Option.some_inj] at h
    rw [← h]
    exact foldl_maxStep_mem rest q

/-- A label picked by `new_leaf_node` from any iteration order of the histogram
of `y` occurs in `y`. -/
theorem newLeafNodeOrd_mem {seq : List (T × ℕ)} {y : List T} {a : T}
    (hperm : List.Perm seq (histogram y)) (h : newLeafNodeOrd seq = some a) :
    a ∈ y := by
  rw [newLeafNodeOrd] at h
  rcases Option.map_eq_some'.1 h with ⟨p, hp, rfl⟩
  have hmem : p ∈ histogram y := hperm.mem_iff.1 (mem_of_maxByKey_eq_some hp)
  exact ((mem_histogram_iff y p).1 hmem).1

theorem predictNode_mem_leafLabels (t : DecisionTreeNode T) (row : List ℝ) :
    predictNode t row ∈ leafLabels t := by
  induction t with
  | Leaf p => simp [predictNode, leafLabels]
  | Interior f th l r ihl ihr =>
    simp only [predictNode, leafLabels]
    by_cases h : row.getD f 0 < th
    · rw [if_pos h]; exact List.mem_append_left _ ihl
    · rw [if_neg h]; exact List.mem_append_right _ ihr

theorem buildTree_height_aux (σ : List T → List (T × ℕ))
    (cfg : DecisionTreeClassifier) (fuel : ℕ) :
    ∀ (x : List (List ℝ)) (y : List T) (depth : ℕ) (t : DecisionTreeNode T),
      cfg.maxDepth + 1 - depth = fuel →
      buildTree σ cfg x y depth = some t → height t ≤ fuel := by
  induction fuel with
  | zero =>
    intro x y depth t hf h
    have hd : depth > cfg.maxDepth := by omega
    rw [buildTree, dif_pos (Or.inr (Or.inl hd))] at h
    rcases Option.map_eq_some'.1 h with ⟨a, _, rfl⟩
    simp [height]
  | succ n ih =>
    intro x y depth t hf h
    rw [buildTree] at h
    by_cases hcond : y.length ≤ cfg.minSize ∨ depth > cfg.maxDepth ∨ entropy y = 0
    · rw [dif_pos hcond] at h
      rcases Option.map_eq_some'.1 h with ⟨a, _, rfl⟩
      simp [height]
    · rw [dif_neg hcond] at h
      push_neg at hcond
      simp only [Option.bind_eq_some, Option.some_inj] at h
      rcases h with ⟨l, hl, r, hr, ht⟩
      have hfl : cfg.maxDepth + 1 - (depth + 1) = n := by omega
      have h1 := ih _ _ _ _ hfl hl
      have h2 := ih _ _ _ _ hfl hr
      rw [← ht]
      simp only [height]
      omega

/-- The tree built by any `build_tree` call at depth parameter `depth` has
height at most `max_depth + 1 - depth`: recursive calls at depths beyond
`max_depth` immediately terminate with leaves. -/
theorem buildTree_height_le (σ : List T → List (T × ℕ))
    (cfg : DecisionTreeClassifier) (x : List (List ℝ)) (y : List T)
    (depth : ℕ) (t : DecisionTreeNode T)
    (h : buildTree σ cfg x y depth = some t) :
    height t ≤ cfg.maxDepth + 1 - depth :=
  buildTree_height_aux σ cfg _ x y depth t rfl h

theorem buildTree_leafLabels_aux (σ : List T → List (T × ℕ))
    (hσ : HistOrder σ) (cfg : DecisionTreeClassifier) (fuel : ℕ) :
    ∀ (x : List (List ℝ)) (y : List T) (depth : ℕ) (t : DecisionTreeNode T),
      cfg.maxDepth + 1 - depth = fuel →
      buildTree σ cfg x y depth = some t → ∀ a ∈ leafLabels t, a ∈ y := by
  induction fuel with
  | zero =>
    intro x y depth t hf h
    have hd : depth > cfg.maxDepth := by omega
    rw [buildTree, dif_pos (Or.inr (Or.inl hd))] at h
    rcases Option.map_eq_some'.1 h with ⟨a, ha, rfl⟩
    intro b hb
    simp only [leafLabels, List.mem_singleton] at hb
    rw [hb]
    exact newLeafNodeOrd_mem (hσ y) ha
  | succ n ih =>
    intro x y depth t hf h
    rw [buildTree] at h
    by_cases hcond : y.length ≤ cfg.minSize ∨ depth > cfg.maxDepth ∨ entropy y = 0
    · rw [dif_pos hcond] at h
      rcases Option.map_eq_some'.1 h with ⟨a, ha, rfl⟩
      intro b hb
      simp only [leafLabels, List.mem_singleton] at hb
      rw [hb]
      exact newLeafNodeOrd_mem (hσ y) ha
    · rw [dif_neg hcond] at h
      push_neg at hcond
      simp only [Option.bind_eq_some, Option.some_inj] at h
      rcases h with ⟨l, hl, r, hr, ht⟩
      have hfl : cfg.maxDepth + 1 - (depth + 1) = n := by omega
      intro b hb
      rw [← ht] at hb
      simp only [leafLabels, List.mem_append] at hb
      rcases hb with hb | hb
      · exact mem_of_mem_select (ih _ _ _ _ hfl hl b hb)
      · exact mem_of_mem_select (ih _ _ _ _ hfl hr b hb)

/-- Every leaf label of a fitted tree occurs among the training labels. -/
theorem fit_leafLabels_subset (σ : List T → List (T × ℕ)) (hσ : HistOrder σ)
    (cfg : DecisionTreeClassifier) (x : List (List ℝ)) (y : List T)
    (m : DecisionTreeModel T) (h : fit σ cfg x y = some m) :
    ∀ a ∈ leafLabels m.tree, a ∈ y := by
  rcases Option.map_eq_some'.1 h with ⟨t, ht, rfl⟩
  exact buildTree_leafLabels_aux σ hσ cfg _ x y 0 t rfl ht

/-- A leaf built from a histogram with a single entry is independent of the
iteration order: any permutation of a singleton is itself. -/
theorem newLeafNodeOrd_of_hist_singleton {l : List T} {p : T × ℕ}
    (σ : List T → List (T × ℕ)) (hσ : HistOrder σ) (hh : histogram l = [p]) :
    newLeafNodeOrd (σ l) = some p.1 := by
  have h1 : List.Perm (σ l) [p] := hh ▸ hσ l
  rw [List.perm_singleton.1 h1]
  rfl

/-- A leaf built from an empty histogram panics (`unwrap` on `None`) in every
iteration order. -/
theorem newLeafNodeOrd_of_hist_nil {l : List T}
    (σ : List T → List (T × ℕ)) (hσ : HistOrder σ) (hh : histogram l = []) :
    newLeafNodeOrd (σ l) = none := by
  have h1 : List.Perm (σ l) [] := hh ▸ hσ l
  rw [List.perm_nil.1 h1]
  rfl

theorem entropy_y8 : entropy y8 = 1 := by
  have h := entropy_of_uniform (l := y8) (k := 2) (m := 4)
    (by decide) (by decide) (by norm_num) (by norm_num)
  rw [h, show ((2 : ℕ) : ℝ) = (2 : ℝ) by norm_num]
  exact Real.logb_self_eq_one one_lt_two

theorem entropy_y4 : entropy y4 = 1 := by
  have h := entropy_of_uniform (l := y4) (k := 2) (m := 2)
    (by decide) (by decide) (by norm_num) (by norm_num)
  rw [h, show ((2 : ℕ) : ℝ) = (2 : ℝ) by norm_num]
  exact Real.logb_self_eq_one one_lt_two

theorem entropy_y2 : entropy y2 = 1 := by
  have h := entropy_of_uniform (l := y2) (k := 2) (m := 1)
    (by decide) (by decide) (by norm_num) (by norm_num)
  rw [h, show ((2 : ℕ) : ℝ) = (2 : ℝ) by norm_num]
  exact Real.logb_self_eq_one one_lt_two

theorem entropy_ff : entropy [false, false, false, false] = 0 :=
  entropy_of_all_eq (a := false) (by simp) (by decide)

theorem entropy_tt : entropy [true, true, true, true] = 0 :=
  entropy_of_all_eq (a := true) (by simp) (by decide)

theorem split8_at1 : splitByValue (column x8 0) 1 = ([], [0, 1, 2, 3, 4, 5, 6, 7]) := by
  rw [splitByValue_eq_filter,
    show (column x8 0).length = 8 from rfl,
    show List.range 8 = [0, 1, 2, 3, 4, 5, 6, 7] from rfl]
  norm_num [List.filter_cons, List.filter_nil,
    show (column x8 0)[0]?.getD 0 = 1 from rfl, show (column x8 0)[1]?.getD 0 = 1 from rfl,
    show (column x8 0)[2]?.getD 0 = 1 from rfl, show (column x8 0)[3]?.getD 0 = 1 from rfl,
    show (column x8 0)[4]?.getD 0 = 5 from rfl, show (column x8 0)[5]?.getD 0 = 5 from rfl,
    show (column x8 0)[6]?.getD 0 = 5 from rfl, show (column x8 0)[7]?.getD 0 = 5 from rfl]

theorem split8_at5 : splitByValue (column x8 0) 5 = ([0, 1, 2, 3], [4, 5, 6, 7]) := by
  rw [splitByValue_eq_filter,
    show (column x8 0).length = 8 from rfl,
    show List.range 8 = [0, 1, 2, 3, 4, 5, 6, 7] from rfl]
  norm_num [List.filter_cons, List.filter_nil,
    show (column x8 0)[0]?.getD 0 = 1 from rfl, show (column x8 0)[1]?.getD 0 = 1 from rfl,
    show (column x8 0)[2]?.getD 0 = 1 from rfl, show (column x8 0)[3]?.getD 0 = 1 from rfl,
    show (column x8 0)[4]?.getD 0 = 5 from rfl, show (column x8 0)[5]?.getD 0 = 5 from rfl,
    show (column x8 0)[6]?.getD 0 = 5 from rfl, show (column x8 0)[7]?.getD 0 = 5 from rfl]

theorem gain8_lo : entropyGain y8 [] [0, 1, 2, 3, 4, 5, 6, 7] = 0 := by
  rw [entropyGain, show select y8 [0, 1, 2, 3, 4, 5, 6, 7] = y8 from rfl,
    show select y8 [] = ([] : List Bool) from rfl, entropy_y8, entropy_nil]
  norm_num [show y8.length = 8 from rfl]

theorem gain8_hi : entropyGain y8 [0, 1, 2, 3] [4, 5, 6, 7] = 1 := by
  rw [entropyGain,
    show select y8 [0, 1, 2, 3] = [false, false, false, false] from rfl,
    show select y8 [4, 5, 6, 7] = [true, true, true, true] from rfl,
    entropy_y8, entropy_ff, entropy_tt]
  norm_num [show y8.length = 8 from rfl]

theorem cand_x8_lo (i : ℕ) (hv : (column x8 0).getD i 0 = 1) :
    candidateAt x8 y8 (0, i) = ⟨0, 1, 0, [], [0, 1, 2, 3, 4, 5, 6, 7]⟩ := by
  simp only [candidateAt]
  rw [hv, split8_at1, gain8_lo]

theorem cand_x8_hi (i : ℕ) (hv : (column x8 0).getD i 0 = 5) :
    candidateAt x8 y8 (0, i) = ⟨1, 5, 0, [0, 1, 2, 3], [4, 5, 6, 7]⟩ := by
  simp only [candidateAt]
  rw [hv, split8_at5, gain8_hi]

theorem cands_x8 : (pairs x8).map (candidateAt x8 y8) =
    [⟨0, 1, 0, [], [0, 1, 2, 3, 4, 5, 6, 7]⟩, ⟨0, 1, 0, [], [0, 1, 2, 3, 4, 5, 6, 7]⟩,
     ⟨0, 1, 0, [], [0, 1, 2, 3, 4, 5, 6, 7]⟩, ⟨0, 1, 0, [], [0, 1, 2, 3, 4, 5, 6, 7]⟩,
     ⟨1, 5, 0, [0, 1, 2, 3], [4, 5, 6, 7]⟩, ⟨1, 5, 0, [0, 1, 2, 3], [4, 5, 6, 7]⟩,
     ⟨1, 5, 0, [0, 1, 2, 3], [4, 5, 6, 7]⟩, ⟨1, 5, 0, [0, 1, 2, 3], [4, 5, 6, 7]⟩] := by
  rw [show pairs x8
    = [(0, 0), (0, 1), (0, 2), (0, 3), (0, 4), (0, 5), (0, 6), (0, 7)] from rfl]
  simp only [List.map_cons, List.map_nil]
  rw [cand_x8_lo 0 rfl, cand_x8_lo 1 rfl, cand_x8_lo 2 rfl, cand_x8_lo 3 rfl,
    cand_x8_hi 4 rfl, cand_x8_hi 5 rfl, cand_x8_hi 6 rfl, cand_x8_hi 7 rfl]

theorem greedyApply_x8 : greedyApply x8 y8 = ([0, 1, 2, 3], [4, 5, 6, 7], 5, 0) := by
  rw [greedyApply, cands_x8]
  rw [List.foldl_cons, selStep_of_lt (by norm_num [initBest])]
  rw [List.foldl_cons, selStep_of_le (by norm_num)]
  rw [List.foldl_cons, selStep_of_le (by norm_num)]
  rw [List.foldl_cons, selStep_of_le (by norm_num)]
  rw [List.foldl_cons, selStep_of_lt (by norm_num)]
  rw [List.foldl_cons, selStep_of_le (by norm_num)]
  rw [List.foldl_cons, selStep_of_le (by norm_num)]
  rw [List.foldl_cons, selStep_of_le (by norm_num)]
  rfl

theorem split4_at1 : splitByValue (column x4 0) 1 = ([], [0, 1, 2, 3]) := by
  rw [splitByValue_eq_filter,
    show (column x4 0).length = 4 from rfl,
    show List.range 4 = [0, 1, 2, 3] from rfl]
  norm_num [List.filter_cons, List.filter_nil,
    show (column x4 0)[0]?.getD 0 = 1 from rfl, show (column x4 0)[1]?.getD 0 = 1 from rfl,
    show (column x4 0)[2]?.getD 0 = 1 from rfl, show (column x4 0)[3]?.getD 0 = 1 from rfl]

theorem gain4_lo : entropyGain y4 [] [0, 1, 2, 3] = 0 := by
  rw [entropyGain, show select y4 [0, 1, 2, 3] = y4 from rfl,
    show select y4 [] = ([] : List Bool) from rfl, entropy_y4, entropy_nil]
  norm_num [show y4.length = 4 from rfl]

theorem cand_x4_lo (i : ℕ) (hv : (column x4 0).getD i 0 = 1) :
    candidateAt x4 y4 (0, i) = ⟨0, 1, 0, [], [0, 1, 2, 3]⟩ := by
  simp only [candidateAt]
  rw [hv, split4_at1, gain4_lo]

theorem cands_x4 : (pairs x4).map (candidateAt x4 y4) =
    [⟨0, 1, 0, [], [0, 1, 2, 3]⟩, ⟨0, 1, 0, [], [0, 1, 2, 3]⟩,
     ⟨0, 1, 0, [], [0, 1, 2, 3]⟩, ⟨0, 1, 0, [], [0, 1, 2, 3]⟩] := by
  rw [show pairs x4 = [(0, 0), (0, 1), (0, 2), (0, 3)] from rfl]
  simp only [List.map_cons, List.map_nil]
  rw [cand_x4_lo 0 rfl, cand_x4_lo 1 rfl, cand_x4_lo 2 rfl, cand_x4_lo 3 rfl]

/-- On the all-identical-feature dataset the winning candidate routes every row
to the right side: the returned left index set is empty. -/
theorem greedyApply_x4 : greedyApply x4 y4 = ([], [0, 1, 2, 3], 1, 0) := by
  rw [greedyApply, cands_x4]
  rw [List.foldl_cons, selStep_of_lt (by norm_num [initBest])]
  rw [List.foldl_cons, selStep_of_le (by norm_num)]
  rw [List.foldl_cons, selStep_of_le (by norm_num)]
  rw [List.foldl_cons, selStep_of_le (by norm_num)]
  rfl

theorem entropy_fsingle : entropy [false] = 0 :=
  entropy_of_all_eq (a := false) (by simp) (by decide)

theorem entropy_tsingle : entropy [true] = 0 :=
  entropy_of_all_eq (a := true) (by simp) (by decide)

theorem split2_at1 : splitByValue (column x2 0) 1 = ([], [0, 1]) := by
  rw [splitByValue_eq_filter,
    show (column x2 0).length = 2 from rfl,
    show List.range 2 = [0, 1] from rfl]
  norm_num [List.filter_cons, List.filter_nil,
    show (column x2 0)[0]?.getD 0 = 1 from rfl, show (column x2 0)[1]?.getD 0 = 5 from rfl]

theorem split2_at5 : splitByValue (column x2 0) 5 = ([0], [1]) := by
  rw [splitByValue_eq_filter,
    show (column x2 0).length = 2 from rfl,
    show List.range 2 = [0, 1] from rfl]
  norm_num [List.filter_cons, List.filter_nil,
    show (column x2 0)[0]?.getD 0 = 1 from rfl, show (column x2 0)[1]?.getD 0 = 5 from rfl]

theorem gain2_lo : entropyGain y2 [] [0, 1] = 0 := by
  rw [entropyGain, show select y2 [0, 1] = y2 from rfl,
    show select y2 [] = ([] : List Bool) from rfl, entropy_y2, entropy_nil]
  norm_num [show y2.length = 2 from rfl]

theorem gain2_hi : entropyGain y2 [0] [1] = 1 := by
  rw [entropyGain, show select y2 [0] = [false] from rfl,
    show select y2 [1] = [true] from rfl, entropy_y2, entropy_fsingle, entropy_tsingle]
  norm_num [show y2.length = 2 from rfl]

theorem cands_x2 : (pairs x2).map (candidateAt x2 y2) =
    [⟨0, 1, 0, [], [0, 1]⟩, ⟨1, 5, 0, [0], [1]⟩] := by
  rw [show pairs x2 = [(0, 0), (0, 1)] from rfl]
  simp only [List.map_cons, List.map_nil]
  have h0 : candidateAt x2 y2 (0, 0) = ⟨0, 1, 0, [], [0, 1]⟩ := by
    simp only [candidateAt]
    rw [show (column x2 0).getD 0 0 = 1 from rfl, split2_at1, gain2_lo]
  have h1 : candidateAt x2 y2 (0, 1) = ⟨1, 5, 0, [0], [1]⟩ := by
    simp only [candidateAt]
    rw [show (column x2 0).getD 1 0 = 5 from rfl, split2_at5, gain2_hi]
  rw [h0, h1]

theorem greedyApply_x2 : greedyApply x2 y2 = ([0], [1], 5, 0) := by
  rw [greedyApply, cands_x2]
  rw [List.foldl_cons, selStep_of_lt (by norm_num [initBest])]
  rw [List.foldl_cons, selStep_of_lt (by norm_num)]
  rfl

theorem buildLeft_x8 (σ : List Bool → List (Bool × ℕ)) (hσ : HistOrder σ) :
    buildTree σ cfg18 (select x8 [0, 1, 2, 3]) (select y8 [0, 1, 2, 3]) 1
      = some (DecisionTreeNode.Leaf false) := by
  rw [show select y8 [0, 1, 2, 3] = [false, false, false, false] from rfl]
  rw [buildTree, dif_pos (Or.inr (Or.inr entropy_ff))]
  rw [newLeafNodeOrd_of_hist_singleton σ hσ
    (show histogram [false, false, false, false] = [(false, 4)] from rfl)]
  rfl

theorem buildRight_x8 (σ : List Bool → List (Bool × ℕ)) (hσ : HistOrder σ) :
    buildTree σ cfg18 (select x8 [4, 5, 6, 7]) (select y8 [4, 5, 6, 7]) 1
      = some (DecisionTreeNode.Leaf true) := by
  rw [show select y8 [4, 5, 6, 7] = [true, true, true, true] from rfl]
  rw [buildTree, dif_pos (Or.inr (Or.inr entropy_tt))]
  rw [newLeafNodeOrd_of_hist_singleton σ hσ
    (show histogram [true, true, true, true] = [(true, 4)] from rfl)]
  rfl

/-- Building on the spec's worked 8-row example, under every possible histogram
iteration order: the root splits column 0 at threshold 5 and both children are
pure leaves. -/
theorem buildTree_x8_eval (σ : List Bool → List (Bool × ℕ)) (hσ : HistOrder σ) :
    buildTree σ cfg18 x8 y8 0 = some (DecisionTreeNode.Interior 0 5
      (DecisionTreeNode.Leaf false) (DecisionTreeNode.Leaf true)) := by
  have hstop : ¬ (y8.length ≤ cfg18.minSize ∨ 0 > cfg18.maxDepth ∨ entropy y8 = 0) := by
    push_neg
    refine ⟨by norm_num [y8, cfg18], by norm_num [cfg18], ?_⟩
    rw [entropy_y8]
    norm_num
  rw [buildTree, dif_neg hstop, greedyApply_x8]
  simp only []
  rw [buildLeft_x8 σ hσ, Option.some_bind, buildRight_x8 σ hσ, Option.some_bind]

/-- Building on the all-identical-feature, mixed-label dataset: the recursion
enters the empty left partition and `new_leaf_node` panics (`none`). -/
theorem buildTree_x4_eval (σ : List Bool → List (Bool × ℕ)) (hσ : HistOrder σ) :
    buildTree σ cfg31 x4 y4 0 = none := by
  have hstop : ¬ (y4.length ≤ cfg31.minSize ∨ 0 > cfg31.maxDepth ∨ entropy y4 = 0) := by
    push_neg
    refine ⟨by norm_num [y4, cfg31], by norm_num [cfg31], ?_⟩
    rw [entropy_y4]
    norm_num
  rw [buildTree, dif_neg hstop, greedyApply_x4]
  simp only []
  have hleft : buildTree σ cfg31 (select x4 []) (select y4 []) 1 = none := by
    rw [show select y4 [] = ([] : List Bool) from rfl, buildTree,
      dif_pos (Or.inl (by norm_num [cfg31]))]
    rw [newLeafNodeOrd_of_hist_nil σ hσ
      (show histogram ([] : List Bool) = [] from rfl)]
    rfl
  rw [hleft]
  rfl

theorem buildLeft_x2 (σ : List Bool → List (Bool × ℕ)) (hσ : HistOrder σ) :
    buildTree σ cfg01 (select x2 [0]) (select y2 [0]) 1
      = some (DecisionTreeNode.Leaf false) := by
  rw [show select y2 [0] = [false] from rfl, buildTree,
    dif_pos (Or.inl (by norm_num [cfg01]))]
  rw [newLeafNodeOrd_of_hist_singleton σ hσ
    (show histogram [false] = [(false, 1)] from rfl)]
  rfl

theorem buildRight_x2 (σ : List Bool → List (Bool × ℕ)) (hσ : HistOrder σ) :
    buildTree σ cfg01 (select x2 [1]) (select y2 [1]) 1
      = some (DecisionTreeNode.Leaf true) := by
  rw [show select y2 [1] = [true] from rfl, buildTree,
    dif_pos (Or.inl (by norm_num [cfg01]))]
  rw [newLeafNodeOrd_of_hist_singleton σ hσ
    (show histogram [true] = [(true, 1)] from rfl)]
  rfl

/-- Building with `max_depth = 0` on the two-row dataset: the root is an
Interior node (the `depth > max_depth` stop fires only at depth 1), not a
Leaf. -/
theorem buildTree_x2_eval (σ : List Bool → List (Bool × ℕ)) (hσ : HistOrder σ) :
    buildTree σ cfg01 x2 y2 0 = some (DecisionTreeNode.Interior 0 5
      (DecisionTreeNode.Leaf false) (DecisionTreeNode.Leaf true)) := by
  have hstop : ¬ (y2.length ≤ cfg01.minSize ∨ 0 > cfg01.maxDepth ∨ entropy y2 = 0) := by
    push_neg
    refine ⟨by norm_num [y2, cfg01], by norm_num [cfg01], ?_⟩
    rw [entropy_y2]
    norm_num
  rw [buildTree, dif_neg hstop, greedyApply_x2]
  simp only []
  rw [buildLeft_x2 σ hσ, Option.some_bind, buildRight_x2 σ hσ, Option.some_bind]

theorem histOrder_histogram : HistOrder (histogram (T := T)) :=
  fun l => List.Perm.refl _

theorem histOrder_histogramRev : HistOrder (histogramRev (T := T)) :=
  fun l => List.reverse_perm (histogram l)

/-- On the tied dataset `y = [A, B]` with `min_size = 2`, the first-insertion
iteration order makes `max_by_key` (last maximum wins) pick `B`. -/
theorem buildTree_y2_natural :
    buildTree (histogram (T := Bool)) cfg52 x2 y2 0
      = some (DecisionTreeNode.Leaf true) := by
  rw [buildTree, dif_pos (Or.inl (by norm_num [y2, cfg52]))]
  rfl

/-- On the same tied dataset the reversed iteration order picks `A`. -/
theorem buildTree_y2_rev :
    buildTree (histogramRev (T := Bool)) cfg52 x2 y2 0
      = some (DecisionTreeNode.Leaf false) := by
  rw [buildTree, dif_pos (Or.inl (by norm_num [y2, cfg52]))]
  rfl

theorem candidateAt_eq_specCandidate (x : List (List ℝ)) (y : List T)
    (ji : ℕ × ℕ) : candidateAt x y ji = specCandidate x y ji := by
  simp only [candidateAt, specCandidate]
  rw [splitByValue_eq_filter, column_length]

theorem predictNode_row1 : predictNode (DecisionTreeNode.Interior 0 5
    (DecisionTreeNode.Leaf false) (DecisionTreeNode.Leaf true)) [1] = false := by
  simp only [predictNode]
  norm_num [show (([1] : List ℝ))[0]?.getD 0 = 1 from rfl]

theorem predictNode_row5 : predictNode (DecisionTreeNode.Interior 0 5
    (DecisionTreeNode.Leaf false) (DecisionTreeNode.Leaf true)) [5] = true := by
  simp only [predictNode]
  norm_num [show (([5] : List ℝ))[0]?.getD 0 = 5 from rfl]

theorem predict_model28 : (DecisionTreeModel.mk (DecisionTreeNode.Interior 0 5
    (DecisionTreeNode.Leaf false) (DecisionTreeNode.Leaf true))).predict
      [[1], [5]] = [false, true] := by
  rw [DecisionTreeModel.predict]
  simp only [List.map_cons, List.map_nil]
  rw [predictNode_row1, predictNode_row5]

/-- Claim C1: the claim says that on an empty split side the classifier builds
a Leaf from the other side's labels and `fit` terminates without error on
identical-feature, mixed-label data.  The code of
`DecisionTreeClassifier::build_tree` has no such guard: on `x4` (four identical
rows) with mixed labels `y4`, the selector returns an empty left index set and
the recursion calls `new_leaf_node` on zero labels, whose `unwrap()` panics —
modelled as `none`.  This evaluates the code at the failing input. -/
theorem claim_C1_empty_side_panics :
    greedyApply x4 y4 = ([], [0, 1, 2, 3], 1, 0) ∧
    fit (histogram (T := Bool)) cfg31 x4 y4 = none := by
  refine ⟨greedyApply_x4, ?_⟩
  rw [fit, buildTree_x4_eval (histogram (T := Bool)) histOrder_histogram]
  rfl

/-- Claim C2 (counterexample): on `x2 = [[1], [5]]`, `y2 = [A, B]` with
`max_depth = 0`, `min_size = 1` — two rows (more than `min_size`), labels not
all identical — the fitted root is *not* a Leaf: `depth > max_depth` is false
at depth 0, so the root is an Interior node. -/
theorem claim_C2_counterexample :
    cfg01.maxDepth = 0 ∧ cfg01.minSize < y2.length ∧
    (false : Bool) ∈ y2 ∧ (true : Bool) ∈ y2 ∧
    (fit (histogram (T := Bool)) cfg01 x2 y2).map (fun m => isLeafNode m.tree)
      = some false := by
  refine ⟨rfl, by norm_num [cfg01, y2], by decide, by decide, ?_⟩
  rw [fit, buildTree_x2_eval (histogram (T := Bool)) histOrder_histogram]
  rfl

/-- Claim C2 (amended): for every training set whose labels are not all
identical and whose row count exceeds `min_size`, a *succeeding* `fit` with
`max_depth = 0` returns a Model whose root is an Interior node with two Leaf
children — the recursion stops one level below the root, not at it. -/
theorem claim_C2_amended (σ : List T → List (T × ℕ))
    (cfg : DecisionTreeClassifier) (x : List (List ℝ)) (y : List T) (a b : T)
    (m : DecisionTreeModel T) (hd : cfg.maxDepth = 0)
    (hmin : cfg.minSize < y.length) (ha : a ∈ y) (hb : b ∈ y) (hab : a ≠ b)
    (hfit : fit σ cfg x y = some m) :
    ∃ f v la lb, m.tree = DecisionTreeNode.Interior f v
      (DecisionTreeNode.Leaf la) (DecisionTreeNode.Leaf lb) := by
  rcases Option.map_eq_some'.1 hfit with ⟨t, ht, rfl⟩
  rw [buildTree, dif_neg ?hstop] at ht
  case hstop =>
    push_neg
    exact ⟨by omega, by omega, (entropy_pos ha hb hab).ne'⟩
  simp only [Option.bind_eq_some, Option.some_inj] at ht
  rcases ht with ⟨l, hl, r, hr, ht⟩
  rw [buildTree, dif_pos (Or.inr (Or.inl (by omega)))] at hl
  rcases Option.map_eq_some'.1 hl with ⟨la, _, rfl⟩
  rw [buildTree, dif_pos (Or.inr (Or.inl (by omega)))] at hr
  rcases Option.map_eq_some'.1 hr with ⟨lb, _, rfl⟩
  exact ⟨_, _, la, lb, ht.symm⟩

/-- Witness for the amended Claim C2 at the concrete two-row dataset. -/
theorem claim_C2_amended_witness :
    cfg01.maxDepth = 0 ∧ cfg01.minSize < y2.length ∧
    (false : Bool) ∈ y2 ∧ (true : Bool) ∈ y2 ∧
    ∃ f v la lb,
      (DecisionTreeModel.mk (DecisionTreeNode.Interior 0 5
        (DecisionTreeNode.Leaf false) (DecisionTreeNode.Leaf true))).tree
        = DecisionTreeNode.Interior f v
            (DecisionTreeNode.Leaf la) (DecisionTreeNode.Leaf lb) := by
  refine ⟨rfl, by norm_num [cfg01, y2], by decide, by decide, ?_⟩
  exact claim_C2_amended (histogram (T := Bool)) cfg01 x2 y2 false true _
    rfl (by norm_num [cfg01, y2]) (by decide) (by decide) (by decide)
    (by rw [fit, buildTree_x2_eval (histogram (T := Bool)) histOrder_histogram]; rfl)

/-- Claim C3: the claim says `fit` on zero rows surfaces a typed `InvalidInput`
error value.  The code's `fit` has no error channel at all: on zero rows the
histogram is empty and `new_leaf_node`'s `unwrap()` panics — an abort, modelled
as `none`, not a returned error value.  This evaluates the code at the failing
input. -/
theorem claim_C3_zero_rows_panics :
    fit (histogram (T := Bool)) ⟨5, 1⟩ [] [] = none := by
  rw [fit, buildTree, dif_pos (Or.inl (by norm_num))]
  rfl

/-- Claim C4: training `DecisionTreeClassifier(max_depth = 1, min_size = 1)` on
the 8-row worked example produces the two-leaf tree rooted at an Interior node
on feature 0 with threshold 5, left Leaf `A = false`, right Leaf `B = true`,
and `predict([[1], [5]])` returns `[A, B]` — under every histogram iteration
order. -/
theorem claim_C4_worked_example (σ : List Bool → List (Bool × ℕ))
    (hσ : HistOrder σ) :
    fit σ cfg18 x8 y8 = some (DecisionTreeModel.mk (DecisionTreeNode.Interior 0 5
      (DecisionTreeNode.Leaf false) (DecisionTreeNode.Leaf true))) ∧
    (fit σ cfg18 x8 y8).map (fun m => m.predict [[1], [5]])
      = some [false, true] := by
  have hfit : fit σ cfg18 x8 y8 = some (DecisionTreeModel.mk
      (DecisionTreeNode.Interior 0 5 (DecisionTreeNode.Leaf false)
        (DecisionTreeNode.Leaf true))) := by
    rw [fit, buildTree_x8_eval σ hσ]
    rfl
  refine ⟨hfit, ?_⟩
  rw [hfit, Option.map_some', predict_model28]

/-- Witness for Claim C4 at the first-insertion iteration order. -/
theorem claim_C4_witness :
    HistOrder (histogram (T := Bool)) ∧
    (fit (histogram (T := Bool)) cfg18 x8 y8
        = some (DecisionTreeModel.mk (DecisionTreeNode.Interior 0 5
          (DecisionTreeNode.Leaf false) (DecisionTreeNode.Leaf true))) ∧
      (fit (histogram (T := Bool)) cfg18 x8 y8).map (fun m => m.predict [[1], [5]])
        = some [false, true]) :=
  ⟨histOrder_histogram,
    claim_C4_worked_example (histogram (T := Bool)) histOrder_histogram⟩

/-- Claim C5: on every matrix with at least one row and one column, the greedy
selector's result is a first-encountered maximal-score candidate of the
column-major, row-major enumeration of spec candidates (threshold `x[i][j]`,
"left iff strictly less", strict-greater-than running-best comparison). -/
theorem claim_C5_greedy_first_argmax (x : List (List ℝ)) (y : List T)
    (hx : 0 < x.length) (hM : 0 < ncols x) (hxy : y.length = x.length) :
    ∃ c, specGreedyChoice ((pairs x).map (specCandidate x y)) c ∧
      greedyApply x y = (c.left, c.right, c.value, c.column) := by
  have hmapeq : (pairs x).map (specCandidate x y)
      = (pairs x).map (candidateAt x y) := by
    apply List.map_congr_left
    intro ji _
    exact (candidateAt_eq_specCandidate x y ji).symm
  rcases greedyApply_spec x y hx hM hxy with
    ⟨pre, c, post, hsplit, happ, hgt, hmax, hpre⟩
  refine ⟨c, ⟨pre, post, ?_, ?_, hpre⟩, happ⟩
  · rw [hmapeq, hsplit]
  · rw [hmapeq]
    exact hmax

/-- Witness for Claim C5 at the 8-row worked example. -/
theorem claim_C5_witness :
    0 < x8.length ∧ 0 < ncols x8 ∧ y8.length = x8.length ∧
    ∃ c, specGreedyChoice ((pairs x8).map (specCandidate x8 y8)) c ∧
      greedyApply x8 y8 = (c.left, c.right, c.value, c.column) :=
  ⟨by norm_num [x8], by norm_num [ncols, x8], by norm_num [x8, y8],
    claim_C5_greedy_first_argmax x8 y8 (by norm_num [x8])
      (by norm_num [ncols, x8]) (by norm_num [x8, y8])⟩

/-- Claim C6: the index sets returned by the Feature Selector are disjoint and
their union is the node's full row index set `{0 .. len(y) - 1}` — the split
fed to every Interior node drops and duplicates no row. -/
theorem claim_C6_partition (x : List (List ℝ)) (y : List T)
    (hx : 0 < x.length) (hM : 0 < ncols x) (hxy : y.length = x.length) :
    Disjoint (greedyApply x y).1.toFinset (greedyApply x y).2.1.toFinset ∧
    (greedyApply x y).1.toFinset ∪ (greedyApply x y).2.1.toFinset
      = Finset.range y.length := by
  rcases greedyApply_spec x y hx hM hxy with
    ⟨pre, c, post, hsplit, happ, hgt, hmax, hpre⟩
  have hc_mem : c ∈ (pairs x).map (candidateAt x y) := by
    rw [hsplit]
    exact List.mem_append_right _ (List.mem_cons_self _ _)
  rcases List.mem_map.1 hc_mem with ⟨ji, hji, hcji⟩
  have hleft : (greedyApply x y).1
      = (splitByValue (column x ji.1) ((column x ji.1).getD ji.2 0)).1 := by
    rw [happ, ← hcji]
    rfl
  have hright : (greedyApply x y).2.1
      = (splitByValue (column x ji.1) ((column x ji.1).getD ji.2 0)).2 := by
    rw [happ, ← hcji]
    rfl
  rw [hleft, hright]
  refine ⟨splitByValue_disjoint _ _, ?_⟩
  rw [splitByValue_union, column_length, hxy]

/-- Witness for Claim C6 at the 8-row worked example. -/
theorem claim_C6_witness :
    0 < x8.length ∧ 0 < ncols x8 ∧ y8.length = x8.length ∧
    (Disjoint (greedyApply x8 y8).1.toFinset (greedyApply x8 y8).2.1.toFinset ∧
      (greedyApply x8 y8).1.toFinset ∪ (greedyApply x8 y8).2.1.toFinset
        = Finset.range y8.length) :=
  ⟨by norm_num [x8], by norm_num [ncols, x8], by norm_num [x8, y8],
    claim_C6_partition x8 y8 (by norm_num [x8])
      (by norm_num [ncols, x8]) (by norm_num [x8, y8])⟩

/-- Claim C7: a label subset with all labels identical has entropy `0`; a
subset with `k` distinct classes each occurring equally often (`m > 0` times)
has entropy `log2 k`. -/
theorem claim_C7_entropy_bounds (l : List T) (k m : ℕ) :
    (l ≠ [] → (∃ a, ∀ b ∈ l, b = a) → entropy l = 0) ∧
    (l.toFinset.card = k → (∀ a ∈ l, l.count a = m) → 0 < m → 0 < k →
      entropy l = Real.logb 2 k) := by
  constructor
  · rintro hne ⟨a, ha⟩
    exact entropy_of_all_eq hne ha
  · intro h1 h2 h3 h4
    exact entropy_of_uniform h1 h2 h3 h4

/-- Witness for Claim C7: a pure subset and the two-class balanced subset. -/
theorem claim_C7_witness :
    entropy [true, true] = 0 ∧ entropy y2 = Real.logb 2 ((2 : ℕ) : ℝ) := by
  constructor
  · exact (claim_C7_entropy_bounds [true, true] 0 0).1 (by simp)
      ⟨true, by decide⟩
  · exact (claim_C7_entropy_bounds y2 2 1).2 (by decide) (by decide)
      (by norm_num) (by norm_num)

/-- Claim C8: for every input and configuration, the tree a successful `fit`
returns has height at most `max_depth + 1` — the depth parameter of a nested
`build_tree` call never exceeds `max_depth + 1`, and the recursion (defined
here by well-founded recursion on `max_depth + 1 - depth`) terminates. -/
theorem claim_C8_depth_bounded (σ : List T → List (T × ℕ))
    (cfg : DecisionTreeClassifier) (x : List (List ℝ)) (y : List T)
    (m : DecisionTreeModel T) (h : fit σ cfg x y = some m) :
    height m.tree ≤ cfg.maxDepth + 1 := by
  rcases Option.map_eq_some'.1 h with ⟨t, ht, rfl⟩
  have hb := buildTree_height_le σ cfg x y 0 t ht
  simpa using hb

/-- Witness for Claim C8 at the 8-row worked example. -/
theorem claim_C8_witness :
    fit (histogram (T := Bool)) cfg18 x8 y8
      = some (DecisionTreeModel.mk (DecisionTreeNode.Interior 0 5
        (DecisionTreeNode.Leaf false) (DecisionTreeNode.Leaf true))) ∧
    height (DecisionTreeModel.mk (DecisionTreeNode.Interior 0 5
      (DecisionTreeNode.Leaf false) (DecisionTreeNode.Leaf true))).tree
      ≤ cfg18.maxDepth + 1 := by
  have hfit : fit (histogram (T := Bool)) cfg18 x8 y8
      = some (DecisionTreeModel.mk (DecisionTreeNode.Interior 0 5
        (DecisionTreeNode.Leaf false) (DecisionTreeNode.Leaf true))) := by
    rw [fit, buildTree_x8_eval (histogram (T := Bool)) histOrder_histogram]
    rfl
  exact ⟨hfit, claim_C8_depth_bounded (histogram (T := Bool)) cfg18 x8 y8 _ hfit⟩

/-- Claim C9 (counterexample): `fit` is *not* deterministic across hash-map
iteration orders.  On the tied dataset `y2 = [A, B]` with `min_size = 2`, two
valid iteration orders of the same histogram content produce models that
predict differently on the row `[1]` (`max_by_key` keeps the last maximum in
iteration order). -/
theorem claim_C9_counterexample :
    HistOrder (histogram (T := Bool)) ∧ HistOrder (histogramRev (T := Bool)) ∧
    (fit (histogram (T := Bool)) cfg52 x2 y2).map (fun m => m.predict [[1]])
      = some [true] ∧
    (fit (histogramRev (T := Bool)) cfg52 x2 y2).map (fun m => m.predict [[1]])
      = some [false] := by
  refine ⟨histOrder_histogram, histOrder_histogramRev, ?_, ?_⟩
  · rw [fit, buildTree_y2_natural]
    simp [DecisionTreeModel.predict, predictNode]
  · rw [fit, buildTree_y2_rev]
    simp [DecisionTreeModel.predict, predictNode]

/-- Claim C9 (amended): `fit` is deterministic for a fixed iteration order, and
the only order-sensitive step — `max_by_key` inside `new_leaf_node` — is
order-independent whenever the maximal count of the node's histogram is
attained by a unique entry; on ties the chosen label depends on the unspecified
iteration order (see the counterexample). -/
theorem claim_C9_amended {y : List T} {seq1 seq2 : List (T × ℕ)}
    (h1 : List.Perm seq1 (histogram y)) (h2 : List.Perm seq2 (histogram y))
    (huniq : ∀ p ∈ histogram y, ∀ q ∈ histogram y,
      (∀ r ∈ histogram y, r.2 ≤ p.2) → (∀ r ∈ histogram y, r.2 ≤ q.2) → p = q) :
    newLeafNodeOrd seq1 = newLeafNodeOrd seq2 := by
  rcases eq_or_ne (histogram y) [] with hnil | hne
  · have h1n : List.Perm seq1 [] := by rw [← hnil]; exact h1
    have h2n : List.Perm seq2 [] := by rw [← hnil]; exact h2
    rw [List.perm_nil.1 h1n, List.perm_nil.1 h2n]
  · have hne1 : seq1 ≠ [] := by
      intro hc
      rw [hc] at h1
      exact hne (List.perm_nil.1 h1.symm)
    have hne2 : seq2 ≠ [] := by
      intro hc
      rw [hc] at h2
      exact hne (List.perm_nil.1 h2.symm)
    rcases maxByKey_eq_some hne1 with ⟨p1, hp1, hp1mem, hp1max⟩
    rcases maxByKey_eq_some hne2 with ⟨p2, hp2, hp2mem, hp2max⟩
    have e1 : p1 ∈ histogram y := h1.mem_iff.1 hp1mem
    have e2 : p2 ∈ histogram y := h2.mem_iff.1 hp2mem
    have m1 : ∀ r ∈ histogram y, r.2 ≤ p1.2 := fun r hr =>
      hp1max r (h1.mem_iff.2 hr)
    have m2 : ∀ r ∈ histogram y, r.2 ≤ p2.2 := fun r hr =>
      hp2max r (h2.mem_iff.2 hr)
    have hpq := huniq p1 e1 p2 e2 m1 m2
    rw [newLeafNodeOrd, newLeafNodeOrd, hp1, hp2, hpq]

/-- Witness for the amended Claim C9: on `y = [A, A, B]` the maximum count is
unique, so both iteration orders of the histogram give the same leaf. -/
theorem claim_C9_amended_witness :
    newLeafNodeOrd [(false, 2), (true, 1)]
      = newLeafNodeOrd [(true, 1), (false, 2)] := by
  apply claim_C9_amended (y := [false, false, true])
  · decide
  · decide
  · decide

/-- Claim C10: every label a fitted model predicts (for any batch of feature
rows) occurs in the training label vector: leaves store labels of the rows
routed to them, and prediction returns a leaf's stored label. -/
theorem claim_C10_predictions_from_training (σ : List T → List (T × ℕ))
    (hσ : HistOrder σ) (cfg : DecisionTreeClassifier) (x : List (List ℝ))
    (y : List T) (m : DecisionTreeModel T) (h : fit σ cfg x y = some m)
    (rows : List (List ℝ)) : ∀ p ∈ m.predict rows, p ∈ y := by
  intro p hp
  rw [DecisionTreeModel.predict] at hp
  rcases List.mem_map.1 hp with ⟨row, _, rfl⟩
  exact fit_leafLabels_subset σ hσ cfg x y m h _
    (predictNode_mem_leafLabels m.tree row)

/-- Witness for Claim C10 at the 8-row worked example. -/
theorem claim_C10_witness :
    fit (histogram (T := Bool)) cfg18 x8 y8
      = some (DecisionTreeModel.mk (DecisionTreeNode.Interior 0 5
        (DecisionTreeNode.Leaf false) (DecisionTreeNode.Leaf true))) ∧
    ∀ p ∈ (DecisionTreeModel.mk (DecisionTreeNode.Interior 0 5
      (DecisionTreeNode.Leaf false) (DecisionTreeNode.Leaf true))).predict
        [[1], [5]], p ∈ y8 := by
  have hfit : fit (histogram (T := Bool)) cfg18 x8 y8
      = some (DecisionTreeModel.mk (DecisionTreeNode.Interior 0 5
        (DecisionTreeNode.Leaf false) (DecisionTreeNode.Leaf true))) := by
    rw [fit, buildTree_x8_eval (histogram (T := Bool)) histOrder_histogram]
    rfl
  exact ⟨hfit, claim_C10_predictions_from_training (histogram (T := Bool))
    histOrder_histogram cfg18 x8 y8 _ hfit [[1], [5]]⟩

end Rune
